import Mathlib

/-!
# Verification of the md-pdf-md Markdown→PDF core

A shallow embedding, over `List Char` / `String`, of the pure core of the
md-pdf-md converter:

* `src/parser.ts` — `generateId`, the TOC-collecting heading renderer, and
  `validateMarkdown`;
* `src/template.ts` — `wrapContentSections`, `generateCoverPage`,
  `generateToc`, `escapeHtml`, `generateHtml`;
* `src/highlighter.ts` — `decodeHtml`;
* `src/themes.ts` — `getTheme` / `getAvailableThemes`;
* `src/converter.ts` — the validation gate of `convertMarkdownToPdf`.

JavaScript strings are modelled as `List Char` (or Lean `String` where more
convenient).  JS regular-expression operations are modelled by explicit
scanners with the same semantics (leftmost match, global replacement, no
rescanning of replaced text).  Functions whose source uses skip-ahead
recursion are written with an explicit `Nat` fuel equal to the input length,
which is always sufficient because every step consumes at least one input
character; the fuel-0 clause is unreachable on the arguments the wrappers
pass.

Unicode caveat: `String.prototype.toLowerCase` and the `\s` class are
modelled on their ASCII fragment (`Char.toLower` lower-cases exactly
`A`–`Z`; `isWsChar` covers the ASCII whitespace characters).  All claims
under study are insensitive to this restriction: non-ASCII letters are
stripped by the `[^\w\s-]` filter either way.
-/

namespace MdPdf

/-- ASCII whitespace, modelling the JS regex class `\s` (restricted to its
ASCII members) and the characters trimmed by `String.prototype.trim`. -/
def isWsChar (c : Char) : Bool :=
  c = ' ' || c = '\t' || c = '\n' || c = '\r' || c = '\x0b' || c = '\x0c'

/-- The JS regex class `\w`: `[A-Za-z0-9_]` (code points 97–122, 65–90,
48–57, and underscore). -/
def isWordChar (c : Char) : Bool :=
  (97 ≤ c.toNat && c.toNat ≤ 122) || (65 ≤ c.toNat && c.toNat ≤ 90) ||
  (48 ≤ c.toNat && c.toNat ≤ 57) || c = '_'

/-- The character class kept by `generateId`'s `.replace(/[^\w\s-]/g, '')`:
word characters, whitespace, and hyphen survive; everything else is
deleted. -/
def keepChar (c : Char) : Bool :=
  isWordChar c || isWsChar c || c = '-'

/-- `.replace(/\s+/g, '-')`: each maximal run of whitespace becomes a single
hyphen.  The Boolean state records whether the previous input character was
whitespace (i.e. whether we are inside a run that already emitted its
hyphen). -/
def wsToHyphen : Bool → List Char → List Char
  | _, [] => []
  | prevWs, c :: t =>
    if isWsChar c then
      if prevWs then wsToHyphen true t else '-' :: wsToHyphen true t
    else c :: wsToHyphen false t

/-- `.replace(/[-]+/g, '-')` (written `[-]+` for the source's `-+`): each
maximal run of hyphens becomes a single
hyphen.  The Boolean state records whether the previous input character was a
hyphen. -/
def collapseHyphens : Bool → List Char → List Char
  | _, [] => []
  | prevH, c :: t =>
    if c = '-' then
      if prevH then collapseHyphens true t else '-' :: collapseHyphens true t
    else c :: collapseHyphens false t

/-- `String.prototype.trim()`: strip leading and trailing whitespace. -/
def jsTrim (l : List Char) : List Char :=
  ((l.dropWhile isWsChar).reverse.dropWhile isWsChar).reverse

/-- `generateId` from `src/parser.ts`:

```ts
text.toLowerCase()
    .replace(/[^\w\s-]/g, '')
    .replace(/\s+/g, '-')
    .replace(/[-]+/g, '-')   // written [-]+ here for the source's -+
    .trim();
```

Note the final step is `trim()` (whitespace trimming, a no-op at that point),
not a hyphen trim. -/
def generateId (text : List Char) : List Char :=
  jsTrim (collapseHyphens false (wsToHyphen false ((text.map Char.toLower).filter keepChar)))

/-- `generateId` as a `String` function, for the parser model. -/
def generateIdStr (text : String) : String :=
  (generateId text.data).asString

/-- A character the spec allows in a generated identifier would satisfy
`[a-z0-9-]`; the code actually produces characters in `[a-z0-9_-]`
(lower-case letters 97–122, digits 48–57, underscore, hyphen).  This is the
*code's* character set. -/
def isIdChar (c : Char) : Bool :=
  (97 ≤ c.toNat && c.toNat ≤ 122) || (48 ≤ c.toNat && c.toNat ≤ 57) || c = '_' || c = '-'

/-- No two adjacent hyphens anywhere in the list. -/
def noDoubleHyphen : List Char → Bool
  | [] => true
  | [_] => true
  | a :: b :: t => !(a = '-' && b = '-') && noDoubleHyphen (b :: t)

/-! ### Facts about the `generateId` pipeline -/

theorem char_ofNat_toNat_of_range {n : Nat} (h1 : 97 ≤ n) (h2 : n ≤ 122) :
    (Char.ofNat n).toNat = n := by
  have hv : n.isValidChar := Or.inl (by omega)
  simp only [Char.ofNat, hv, dif_pos]
  simp [Char.ofNatAux, Char.toNat, UInt32.toNat, UInt32.ofNatTruncate]

/-- `Char.toLower` never returns an ASCII uppercase letter. -/
theorem toLower_not_upper (c : Char) :
    (Char.toLower c).toNat < 65 ∨ 90 < (Char.toLower c).toNat := by
  unfold Char.toLower
  by_cases h : c.toNat ≥ 65 ∧ c.toNat ≤ 90
  · simp only [h, and_self, if_pos]
    have : (Char.ofNat (c.toNat + 32)).toNat = c.toNat + 32 :=
      char_ofNat_toNat_of_range (by omega) (by omega)
    omega
  · simp only [h, if_neg, not_false_eq_true]
    omega

theorem mem_wsToHyphen {c : Char} :
    ∀ (b : Bool) (l : List Char), c ∈ wsToHyphen b l → c = '-' ∨ (c ∈ l ∧ isWsChar c = false) := by
  intro b l
  induction l generalizing b with
  | nil => intro h; simp [wsToHyphen] at h
  | cons x t ih =>
    intro h
    simp only [wsToHyphen] at h
    by_cases hws : isWsChar x
    · simp only [hws, if_pos] at h
      by_cases hb : b
      · subst hb; simp only [if_pos] at h
        rcases ih true h with h' | h'
        · exact Or.inl h'
        · exact Or.inr ⟨List.mem_cons_of_mem _ h'.1, h'.2⟩
      · simp only [hb, if_neg, Bool.false_eq_true, not_false_eq_true, List.mem_cons] at h
        rcases h with h | h
        · exact Or.inl h
        · rcases ih true h with h' | h'
          · exact Or.inl h'
          · exact Or.inr ⟨List.mem_cons_of_mem _ h'.1, h'.2⟩
    · simp only [hws, Bool.false_eq_true, if_neg, not_false_eq_true, List.mem_cons] at h
      rcases h with h | h
      · subst h
        exact Or.inr ⟨List.mem_cons_self _ _, by simpa using hws⟩
      · rcases ih false h with h' | h'
        · exact Or.inl h'
        · exact Or.inr ⟨List.mem_cons_of_mem _ h'.1, h'.2⟩

theorem mem_collapseHyphens {c : Char} :
    ∀ (b : Bool) (l : List Char), c ∈ collapseHyphens b l → c ∈ l := by
  intro b l
  induction l generalizing b with
  | nil => intro h; simp [collapseHyphens] at h
  | cons x t ih =>
    intro h
    simp only [collapseHyphens] at h
    by_cases hx : x = '-'
    · simp only [hx, if_pos] at h
      by_cases hb : b
      · subst hb; simp only [if_pos] at h
        exact List.mem_cons_of_mem _ (ih true h)
      · simp only [hb, Bool.false_eq_true, if_neg, not_false_eq_true, List.mem_cons] at h
        rcases h with h | h
        · exact h ▸ (hx ▸ List.mem_cons_self _ _)
        · exact List.mem_cons_of_mem _ (ih true h)
    · simp only [hx, if_neg, not_false_eq_true, List.mem_cons] at h
      rcases h with h | h
      · exact h ▸ List.mem_cons_self _ _
      · exact List.mem_cons_of_mem _ (ih false h)

theorem mem_jsTrim {c : Char} {l : List Char} (h : c ∈ jsTrim l) : c ∈ l := by
  unfold jsTrim at h
  rw [List.mem_reverse] at h
  have h1 := List.dropWhile_sublist (l := (l.dropWhile isWsChar).reverse) (p := isWsChar)
  have h2 := h1.mem h
  rw [List.mem_reverse] at h2
  exact (List.dropWhile_sublist (l := l) (p := isWsChar)).mem h2

theorem dropWhile_ws_eq_self {l : List Char} (h : ∀ c ∈ l, isWsChar c = false) :
    l.dropWhile isWsChar = l := by
  cases l with
  | nil => rfl
  | cons x t => simp [List.dropWhile_cons, h x (List.mem_cons_self _ _)]

theorem jsTrim_eq_self {l : List Char} (h : ∀ c ∈ l, isWsChar c = false) :
    jsTrim l = l := by
  unfold jsTrim
  rw [dropWhile_ws_eq_self h]
  rw [dropWhile_ws_eq_self (by intro c hc; exact h c (List.mem_reverse.mp hc))]
  exact List.reverse_reverse l

theorem collapseHyphens_head_ne :
    ∀ l : List Char, (collapseHyphens true l).head? ≠ some '-' := by
  intro l
  induction l with
  | nil => simp [collapseHyphens]
  | cons x t ih =>
    by_cases hx : x = '-'
    · simpa [collapseHyphens, hx] using ih
    · simp [collapseHyphens, hx]

theorem noDoubleHyphen_cons {a : Char} {l : List Char}
    (h1 : noDoubleHyphen l = true) (h2 : l.head? = some '-' → a ≠ '-') :
    noDoubleHyphen (a :: l) = true := by
  cases l with
  | nil => rfl
  | cons y t =>
    simp only [noDoubleHyphen, Bool.and_eq_true, Bool.not_eq_true']
    refine ⟨?_, h1⟩
    by_cases hy : y = '-'
    · have := h2 (by simp [hy])
      simp [this]
    · simp [hy]

theorem noDoubleHyphen_collapseHyphens :
    ∀ (l : List Char) (b : Bool), noDoubleHyphen (collapseHyphens b l) = true := by
  intro l
  induction l with
  | nil => intro b; rfl
  | cons x t ih =>
    intro b
    by_cases hx : x = '-'
    · by_cases hb : b
      · simpa [collapseHyphens, hx, hb] using ih true
      · simp only [hb]
        simp only [collapseHyphens, hx, if_pos, Bool.false_eq_true, if_neg, not_false_eq_true]
        exact noDoubleHyphen_cons (ih true)
          (fun h _ => collapseHyphens_head_ne t h)
    · simp only [collapseHyphens, hx, if_neg, not_false_eq_true]
      exact noDoubleHyphen_cons (ih false) (fun _ => hx)

/-- C1 counterexample: for heading text `"A_B "` the generated identifier is
`"a_b-"`, which contains an underscore (a character outside `[a-z0-9-]`) and
ends in a hyphen.  This refutes the claim that identifiers contain no
characters outside `[a-z0-9-]` and have no trailing hyphen: the `\w` class
keeps underscores, and the final `trim()` removes whitespace, not hyphens. -/
theorem C1_counterexample :
    generateId "A_B ".data = "a_b-".data ∧
    '_' ∈ generateId "A_B ".data ∧
    (generateId "A_B ".data).getLast? = some '-' := by
  refine ⟨by decide, by decide, by decide⟩

/-- C1 (amended): for every heading text, every character of the generated
identifier lies in `[a-z0-9_-]` — in particular the identifier is fully
lower-case — and the identifier contains no doubled hyphen.  (The original
claim's exclusion of underscore and of leading/trailing hyphens fails, see
`C1_counterexample`.) -/
theorem C1_generateId_charset (text : List Char) :
    (∀ c ∈ generateId text, isIdChar c = true) ∧
    noDoubleHyphen (generateId text) = true := by
  constructor
  · intro c hc
    have hc1 : c ∈ collapseHyphens false (wsToHyphen false ((text.map Char.toLower).filter keepChar)) :=
      mem_jsTrim hc
    have hc2 := mem_collapseHyphens _ _ hc1
    rcases mem_wsToHyphen _ _ hc2 with h | ⟨hmem, hnws⟩
    · simp [isIdChar, h]
    · have hkeep : keepChar c = true := List.of_mem_filter hmem
      have hmap : c ∈ (text.map Char.toLower) := List.mem_of_mem_filter hmem
      obtain ⟨d, _, rfl⟩ := List.mem_map.mp hmap
      have hupper := toLower_not_upper d
      simp only [keepChar, isWordChar, Bool.or_eq_true, Bool.and_eq_true,
        decide_eq_true_eq] at hkeep
      simp only [isIdChar, Bool.or_eq_true, Bool.and_eq_true, decide_eq_true_eq]
      rcases hkeep with ((((h1 | h2) | h3) | h4) | h5) | h6
      · exact Or.inl (Or.inl (Or.inl h1))
      · omega
      · exact Or.inl (Or.inl (Or.inr h3))
      · exact Or.inl (Or.inr h4)
      · exact absurd h5 (by simp [hnws])
      · exact Or.inr h6
  · -- no doubled hyphen: `collapseHyphens` guarantees it, `jsTrim` is the
    -- identity because no whitespace survives `wsToHyphen`.
    have hnws : ∀ c ∈ collapseHyphens false (wsToHyphen false ((text.map Char.toLower).filter keepChar)),
        isWsChar c = false := by
      intro c hc
      rcases mem_wsToHyphen _ _ (mem_collapseHyphens _ _ hc) with h | ⟨_, h⟩
      · simp [h, isWsChar]
      · exact h
    unfold generateId
    rw [jsTrim_eq_self hnws]
    exact noDoubleHyphen_collapseHyphens _ _

/-! ### The section wrapper (`wrapContentSections`, `src/template.ts`)

The source regroups serialized HTML with a regex:

```ts
const wrapped = html.replace(
  /(<h2[^>]*>.*?<\/h2>)((?:(?!<h2)[\s\S])*)/g,
  '<div class="section">$1$2</div>'
);
const firstH2Index = wrapped.indexOf('<h2');
if (firstH2Index > 0) {
  const beforeFirstH2 = wrapped.substring(0, firstH2Index);
  const afterFirstH2 = wrapped.substring(firstH2Index);
  if (beforeFirstH2.trim()) {
    return `<div class="section">${beforeFirstH2}</div>${afterFirstH2}`;
  }
}
return wrapped;
```

The global replace is modelled as a left-to-right scanner: at each position
where `<h2` occurs, try to match `<h2[^>]*>.*?<\/h2>` (`[^>]*` = greedy run
of non-`>` characters then a literal `>`; `.*?` = the nearest following
`</h2>` with no newline in between, since `.` does not match newlines); on a
match, the heading plus the following run of characters up to the next `<h2`
occurrence (or the end) is wrapped in the section container, and scanning
resumes after it; otherwise the scanner advances one character.  The fuel
argument equals the input length, which suffices because every step consumes
at least one character. -/

/-- The inserted section container's opening tag. -/
def secOpen : List Char := "<div class=\"section\">".data

/-- The inserted section container's closing tag. -/
def secClose : List Char := "</div>".data

/-- The substring the source searches for: `<h2`. -/
def h2open : List Char := "<h2".data

/-- The literal `</h2>`. -/
def h2close : List Char := "</h2>".data

/-- Match the lazy `.*?<\/h2>` part: scan forward to the nearest `</h2>`,
failing on a newline (JS `.` does not match `\n`).  Returns the consumed
characters (including the closing tag) and the remainder. -/
def findH2Close : List Char → Option (List Char × List Char)
  | [] => none
  | c :: t =>
    if h2close.isPrefixOf (c :: t) then some (h2close, (c :: t).drop 5)
    else if c = '\n' then none
    else (findH2Close t).map (fun p => (c :: p.1, p.2))

/-- Attempt to match `<h2[^>]*>.*?<\/h2>` at the head of `l`.  On success,
returns the matched heading and the remainder of the input. -/
def tryHeading (l : List Char) : Option (List Char × List Char) :=
  if h2open.isPrefixOf l then
    if ((l.drop 3).dropWhile (fun c => c ≠ '>')).isEmpty then none
    else
      (findH2Close ((l.drop 3).dropWhile (fun c => c ≠ '>')).tail).map
        (fun p => (h2open ++ (l.drop 3).takeWhile (fun c => c ≠ '>') ++ '>' :: p.1, p.2))
  else none

/-- `(?:(?!<h2)[\s\S])*` (greedy): split off the run of characters up to the
next occurrence of `<h2` (or the end of input). -/
def takeUntilH2 : List Char → List Char × List Char
  | [] => ([], [])
  | c :: t =>
    if h2open.isPrefixOf (c :: t) then ([], c :: t)
    else
      let p := takeUntilH2 t
      (c :: p.1, p.2)

/-- The scanner for the global regex replacement, with explicit fuel. -/
def wrapFuel : Nat → List Char → List Char
  | 0, l => l
  | _ + 1, [] => []
  | n + 1, c :: t =>
    match tryHeading (c :: t) with
    | some (h, rest) =>
      let p := takeUntilH2 rest
      secOpen ++ h ++ p.1 ++ secClose ++ wrapFuel n p.2
    | none => c :: wrapFuel n t

/-- `html.replace(/(<h2[^>]*>.*?<\/h2>)((?:(?!<h2)[\s\S])*)/g, '<div class="section">$1$2</div>')`. -/
def wrapLoop (l : List Char) : List Char := wrapFuel l.length l

/-- Substring occurrence test (`indexOf(pat) !== -1`). -/
def containsSub (pat : List Char) : List Char → Bool
  | [] => pat.isPrefixOf []
  | c :: t => pat.isPrefixOf (c :: t) || containsSub pat t

/-- `indexOf`: index of the first occurrence of `pat`, `none` for `-1`. -/
def idxOfSub (pat : List Char) : List Char → Option Nat
  | [] => if pat.isEmpty then some 0 else none
  | c :: t =>
    if pat.isPrefixOf (c :: t) then some 0
    else (idxOfSub pat t).map (· + 1)

/-- Number of (possibly overlapping) occurrences of `pat`; the wrapper tags
counted here cannot overlap themselves, so this is the plain occurrence
count. -/
def countSub (pat : List Char) : List Char → Nat
  | [] => 0
  | c :: t => (if pat.isPrefixOf (c :: t) then 1 else 0) + countSub pat t

/-- `wrapContentSections` from `src/template.ts` (see the section comment
above for the source). -/
def wrapContentSections (html : List Char) : List Char :=
  match idxOfSub h2open (wrapLoop html) with
  | some i =>
    if 0 < i then
      if jsTrim ((wrapLoop html).take i) ≠ [] then
        secOpen ++ (wrapLoop html).take i ++ secClose ++ (wrapLoop html).drop i
      else wrapLoop html
    else wrapLoop html
  | none => wrapLoop html

/-! ### Splitting facts for the wrapper scanner -/

theorem findH2Close_split :
    ∀ {l mid rest : List Char}, findH2Close l = some (mid, rest) → l = mid ++ rest := by
  intro l
  induction l with
  | nil => intro mid rest h; simp [findH2Close] at h
  | cons c t ih =>
    intro mid rest h
    unfold findH2Close at h
    by_cases hpre : h2close.isPrefixOf (c :: t)
    · rw [if_pos hpre] at h
      simp only [Option.some.injEq, Prod.mk.injEq] at h
      obtain ⟨rfl, rfl⟩ := h
      obtain ⟨r, hr⟩ := List.isPrefixOf_iff_prefix.mp hpre
      have hdrop : (c :: t).drop 5 = r := by
        rw [← hr]
        exact List.drop_left h2close r
      rw [hdrop, ← hr]
    · rw [if_neg hpre] at h
      by_cases hnl : c = '\n'
      · rw [if_pos hnl] at h; simp at h
      · rw [if_neg hnl] at h
        obtain ⟨p, hp, hpe⟩ := Option.map_eq_some'.mp h
        simp only [Prod.mk.injEq] at hpe
        obtain ⟨rfl, rfl⟩ := hpe
        have := ih (show findH2Close t = some (p.1, p.2) by rw [hp])
        simp [← this]

theorem tryHeading_split {l h rest : List Char} (heq : tryHeading l = some (h, rest)) :
    l = h ++ rest ∧ h ≠ [] := by
  unfold tryHeading at heq
  by_cases hpre : h2open.isPrefixOf l
  · rw [if_pos hpre] at heq
    by_cases hemp : ((l.drop 3).dropWhile (fun c => c ≠ '>')).isEmpty
    · rw [if_pos hemp] at heq; simp at heq
    · rw [if_neg hemp] at heq
      obtain ⟨p, hp, hpe⟩ := Option.map_eq_some'.mp heq
      simp only [Prod.mk.injEq] at hpe
      obtain ⟨rfl, rfl⟩ := hpe
      obtain ⟨r, hr⟩ := List.isPrefixOf_iff_prefix.mp hpre
      have hdrop3 : l.drop 3 = r := by
        rw [← hr]; exact List.drop_left h2open r
      have hne : (l.drop 3).dropWhile (fun c => c ≠ '>') ≠ [] := by
        intro hcon
        rw [hcon] at hemp
        exact hemp rfl
      have hcons : ((l.drop 3).dropWhile (fun c => c ≠ '>')).head hne ::
          ((l.drop 3).dropWhile (fun c => c ≠ '>')).tail =
          (l.drop 3).dropWhile (fun c => c ≠ '>') :=
        List.head_cons_tail _ hne
      -- The head of the dropWhile remainder fails the predicate, so it is `'>'`.
      have hg : ((l.drop 3).dropWhile (fun c => c ≠ '>')).head hne = '>' := by
        have := List.head_dropWhile_not (p := fun c => decide (c ≠ '>')) (l := l.drop 3) hne
        simpa using this
      have hmid := findH2Close_split (show findH2Close ((l.drop 3).dropWhile (fun c => c ≠ '>')).tail = some (p.1, p.2) by rw [hp])
      constructor
      · have e2 : (l.drop 3).dropWhile (fun c => c ≠ '>') =
            '>' :: ((l.drop 3).dropWhile (fun c => c ≠ '>')).tail := by
          conv_lhs => rw [← hcons]
          rw [hg]
        calc l = h2open ++ r := hr.symm
          _ = h2open ++ l.drop 3 := by rw [hdrop3]
          _ = h2open ++ ((l.drop 3).takeWhile (fun c => c ≠ '>') ++
                (l.drop 3).dropWhile (fun c => c ≠ '>')) := by
              rw [List.takeWhile_append_dropWhile]
          _ = h2open ++ ((l.drop 3).takeWhile (fun c => c ≠ '>') ++ ('>' :: (p.1 ++ p.2))) := by
              rw [e2, hmid]
          _ = h2open ++ (l.drop 3).takeWhile (fun c => c ≠ '>') ++ '>' :: p.1 ++ p.2 := by
              simp [List.append_assoc]
      · simp [h2open]
  · rw [if_neg hpre] at heq
    simp at heq

theorem takeUntilH2_split : ∀ l : List Char, l = (takeUntilH2 l).1 ++ (takeUntilH2 l).2 := by
  intro l
  induction l with
  | nil => rfl
  | cons c t ih =>
    simp only [takeUntilH2]
    by_cases hpre : h2open.isPrefixOf (c :: t)
    · simp [hpre]
    · simp only [hpre, Bool.false_eq_true, if_neg, not_false_eq_true]
      simpa using ih

/-! ### The insertion-only relation

`InsertOnly a b` says `b` is obtained from `a` by repeatedly inserting one of
the two wrapper tags at some position.  In particular `b` keeps every
character of `a` in order — nothing in the body is altered, reordered,
dropped or duplicated — and deleting the inserted wrapper strings recovers
exactly `a`. -/

/-- One insertion of a wrapper tag. -/
def Ins1 (a b : List Char) : Prop :=
  ∃ u v t, (t = secOpen ∨ t = secClose) ∧ a = u ++ v ∧ b = u ++ (t ++ v)

/-- Finitely many insertions of wrapper tags. -/
def InsertOnly : List Char → List Char → Prop :=
  Relation.ReflTransGen Ins1

theorem Ins1.front {l : List Char} {t : List Char} (ht : t = secOpen ∨ t = secClose) :
    Ins1 l (t ++ l) :=
  ⟨[], l, t, ht, rfl, rfl⟩

theorem Ins1.middle (u v : List Char) {t : List Char} (ht : t = secOpen ∨ t = secClose) :
    Ins1 (u ++ v) (u ++ (t ++ v)) :=
  ⟨u, v, t, ht, rfl, rfl⟩

theorem InsertOnly.cons_lift {a b : List Char} (x : Char) (h : InsertOnly a b) :
    InsertOnly (x :: a) (x :: b) := by
  refine Relation.ReflTransGen.lift (x :: ·) ?_ h
  rintro p q ⟨u, v, t, ht, rfl, rfl⟩
  exact ⟨x :: u, v, t, ht, rfl, rfl⟩

theorem InsertOnly.append_lift {a b : List Char} (l : List Char) (h : InsertOnly a b) :
    InsertOnly (l ++ a) (l ++ b) := by
  refine Relation.ReflTransGen.lift (l ++ ·) ?_ h
  rintro p q ⟨u, v, t, ht, rfl, rfl⟩
  exact ⟨l ++ u, v, t, ht, by simp, by simp⟩

theorem wrapFuel_insertOnly : ∀ (n : Nat) (l : List Char), InsertOnly l (wrapFuel n l) := by
  intro n
  induction n with
  | zero => intro l; exact Relation.ReflTransGen.refl
  | succ n ih =>
    intro l
    cases l with
    | nil => exact Relation.ReflTransGen.refl
    | cons c t =>
      cases htry : tryHeading (c :: t) with
      | none =>
        simp only [wrapFuel, htry]
        exact (ih t).cons_lift c
      | some p =>
        cases p with
        | mk h rest =>
          obtain ⟨hsplit, -⟩ := tryHeading_split htry
          simp only [wrapFuel, htry]
          have hrest := takeUntilH2_split rest
          set chunk := (takeUntilH2 rest).1 with hchunk
          set rest2 := (takeUntilH2 rest).2 with hrest2
          rw [hsplit, hrest]
          have s1 : InsertOnly ((h ++ chunk) ++ rest2) ((h ++ chunk) ++ wrapFuel n rest2) :=
            (ih rest2).append_lift (h ++ chunk)
          have s2 : Ins1 ((h ++ chunk) ++ wrapFuel n rest2)
              ((h ++ chunk) ++ (secClose ++ wrapFuel n rest2)) :=
            Ins1.middle _ _ (Or.inr rfl)
          have s3 : Ins1 ((h ++ chunk) ++ (secClose ++ wrapFuel n rest2))
              (secOpen ++ ((h ++ chunk) ++ (secClose ++ wrapFuel n rest2))) :=
            Ins1.front (Or.inl rfl)
          have chain : InsertOnly ((h ++ chunk) ++ rest2)
              (secOpen ++ ((h ++ chunk) ++ (secClose ++ wrapFuel n rest2))) :=
            ((s1.tail s2).tail s3)
          simpa [List.append_assoc] using chain

/-- C10: the section wrapper only inserts the `<div class="section">` /
`</div>` wrapper tags into the body markup — it never alters, reorders,
drops, or duplicates the body content itself, so deleting the inserted
wrapper strings from its output yields exactly the input. -/
theorem C10_wrapContentSections_insertOnly (html : List Char) :
    InsertOnly html (wrapContentSections html) := by
  unfold wrapContentSections
  have hbase : InsertOnly html (wrapLoop html) := wrapFuel_insertOnly _ _
  cases hidx : idxOfSub h2open (wrapLoop html) with
  | none => simpa [hidx] using hbase
  | some i =>
    simp only [hidx]
    by_cases hpos : 0 < i
    · by_cases htrim : jsTrim ((wrapLoop html).take i) ≠ []
      · rw [if_pos hpos, if_pos htrim]
        have hsplit : wrapLoop html = (wrapLoop html).take i ++ (wrapLoop html).drop i :=
          (List.take_append_drop i (wrapLoop html)).symm
        rw [hsplit] at hbase
        have s2 : Ins1 ((wrapLoop html).take i ++ (wrapLoop html).drop i)
            ((wrapLoop html).take i ++ (secClose ++ (wrapLoop html).drop i)) :=
          Ins1.middle _ _ (Or.inr rfl)
        have s3 : Ins1 ((wrapLoop html).take i ++ (secClose ++ (wrapLoop html).drop i))
            (secOpen ++ ((wrapLoop html).take i ++ (secClose ++ (wrapLoop html).drop i))) :=
          Ins1.front (Or.inl rfl)
        have chain : InsertOnly html
            (secOpen ++ ((wrapLoop html).take i ++ (secClose ++ (wrapLoop html).drop i))) :=
          (hbase.tail s2).tail s3
        simpa [List.append_assoc] using chain
      · rw [if_pos hpos, if_neg htrim]; exact hbase
    · rw [if_neg hpos]; exact hbase

/-! ### Behaviour when the body contains no `<h2` -/

theorem not_prefix_of_containsSub_false {pat l : List Char}
    (h : containsSub pat l = false) : pat.isPrefixOf l = false := by
  cases l with
  | nil => simpa [containsSub] using h
  | cons c t =>
    simp only [containsSub, Bool.or_eq_false_iff] at h
    exact h.1

theorem containsSub_tail_false {pat : List Char} {c : Char} {t : List Char}
    (h : containsSub pat (c :: t) = false) : containsSub pat t = false := by
  simp only [containsSub, Bool.or_eq_false_iff] at h
  exact h.2

theorem tryHeading_eq_none {l : List Char} (h : h2open.isPrefixOf l = false) :
    tryHeading l = none := by
  unfold tryHeading
  simp [h]

theorem wrapFuel_eq_self :
    ∀ (n : Nat) (l : List Char), containsSub h2open l = false → wrapFuel n l = l := by
  intro n
  induction n with
  | zero => intro l _; rfl
  | succ n ih =>
    intro l hl
    cases l with
    | nil => rfl
    | cons c t =>
      have hpre := not_prefix_of_containsSub_false hl
      simp only [wrapFuel, tryHeading_eq_none hpre]
      rw [ih t (containsSub_tail_false hl)]

theorem idxOfSub_eq_none {pat l : List Char} (hpat : pat ≠ [])
    (h : containsSub pat l = false) : idxOfSub pat l = none := by
  induction l with
  | nil =>
    simp only [idxOfSub]
    rw [if_neg]
    simpa [List.isEmpty_iff] using hpat
  | cons c t ih =>
    simp only [idxOfSub]
    rw [if_neg (by simp [not_prefix_of_containsSub_false h])]
    rw [ih (containsSub_tail_false h)]
    rfl

/-- C3 counterexample: a body with no second-level heading is returned with
*zero* `<div class="section">` containers, not wrapped in exactly one Section
as the claim states. -/
theorem C3_counterexample :
    wrapContentSections "<p>hello</p>".data = "<p>hello</p>".data ∧
    countSub secOpen (wrapContentSections "<p>hello</p>".data) = 0 := by
  exact ⟨by decide, by decide⟩

/-- C3 (amended): for every body markup containing no occurrence of `<h2`,
the section wrapper returns the body unchanged — no Section container is
inserted; the entire body is left as a single unwrapped region.  (The
original claim of "exactly one Section spanning the whole body" fails, see
`C3_counterexample`; the spec itself notes unwrapped degeneration.) -/
theorem C3_no_h2_unwrapped (html : List Char) (h : containsSub h2open html = false) :
    wrapContentSections html = html := by
  have hwrap : wrapLoop html = html := wrapFuel_eq_self _ _ h
  unfold wrapContentSections
  rw [hwrap, idxOfSub_eq_none (by decide) h]

/-- Witness for `C3_no_h2_unwrapped` at the concrete body `"<p>a</p>"`. -/
theorem C3_no_h2_unwrapped_witness :
    containsSub h2open "<p>a</p>".data = false ∧
    wrapContentSections "<p>a</p>".data = "<p>a</p>".data :=
  ⟨by decide, C3_no_h2_unwrapped "<p>a</p>".data (by decide)⟩

/-- C4: evaluation of `wrapContentSections` at a body that begins immediately
with a second-level heading.  The claim (and the spec's §4.3 edge case) says
such a body has *no* leading Section, but the code emits a spurious empty
leading Section `<div class="section"><div class="section"></div>…`: the
post-pass searches for `<h2` inside the *already wrapped* string, where the
first section's own `<div class="section">` tag precedes the first `<h2`, so
`firstH2Index > 0` and `beforeFirstH2` (the inserted open tag itself, never
whitespace-only) gets wrapped.  This contradicts the function's own comment
("Also wrap any content before the first h2") — a slip in the code. -/
theorem C4_leading_section_bug :
    wrapContentSections "<h2 id=\"a\">A</h2><p>t</p>".data =
      "<div class=\"section\"><div class=\"section\"></div><h2 id=\"a\">A</h2><p>t</p></div>".data ∧
    countSub secOpen (wrapContentSections "<h2 id=\"a\">A</h2><p>t</p>".data) = 2 := by
  exact ⟨by decide, by decide⟩

/-! ### HTML escaping and decoding (`escapeHtml`, `src/template.ts`;
`decodeHtml`, `src/highlighter.ts`)

`escapeHtml` is a single-pass character map
(`text.replace(/[&<>"']/g, char => map[char])`), while `decodeHtml` is a
*chain* of five global fixed-string replacements applied in the order
`&amp;`, `&lt;`, `&gt;`, `&quot;`, `&#39;`:

```ts
html.replace(/&amp;/g, '&')
    .replace(/&lt;/g, '<')
    .replace(/&gt;/g, '>')
    .replace(/&quot;/g, '"')
    .replace(/&#39;/g, "'");
```

Because the `&amp;` pass runs first, text such as `&lt;` escapes to
`&amp;lt;` and then decodes in two steps down to `<` — the round-trip is not
the identity on strings that already contain entity sequences. -/

/-- The entity for `&`: the characters of `&amp;`. -/
def entAmp : List Char := ['&', 'a', 'm', 'p', ';']

/-- The entity for `<`: the characters of `&lt;`. -/
def entLt : List Char := ['&', 'l', 't', ';']

/-- The entity for `>`: the characters of `&gt;`. -/
def entGt : List Char := ['&', 'g', 't', ';']

/-- The entity for `"`: the characters of `&quot;`. -/
def entQuot : List Char := ['&', 'q', 'u', 'o', 't', ';']

/-- The entity for `'`: the characters of `&#39;`. -/
def entApos : List Char := ['&', '#', '3', '9', ';']

/-- The per-character map of `escapeHtml`. -/
def escChar (c : Char) : List Char :=
  if c = '&' then entAmp
  else if c = '<' then entLt
  else if c = '>' then entGt
  else if c = '"' then entQuot
  else if c = '\'' then entApos
  else [c]

/-- `escapeHtml` from `src/template.ts`. -/
def escapeHtml (l : List Char) : List Char := l.flatMap escChar

/-- `escapeHtml` on `String`. -/
def escapeHtmlStr (s : String) : String := (escapeHtml s.data).asString

/-- Global fixed-string replacement (`str.replace(/pat/g, rep)` for a
literal pattern): scan left to right; at a match, emit the replacement and
resume after the matched text (replacements are not rescanned); otherwise
copy one character.  Fuel equals the input length, which suffices since each
step consumes at least one character of a nonempty pattern. -/
def raFuel : Nat → List Char → List Char → List Char → List Char
  | 0, _, _, l => l
  | _ + 1, _, _, [] => []
  | n + 1, pat, rep, c :: t =>
    if pat.isPrefixOf (c :: t) then rep ++ raFuel n pat rep ((c :: t).drop pat.length)
    else c :: raFuel n pat rep t

/-- `replaceAll pat rep l` = `l.replace(/pat/g, rep)` for a literal
pattern. -/
def replaceAll (pat rep l : List Char) : List Char := raFuel l.length pat rep l

/-- `decodeHtml` from `src/highlighter.ts`: five chained global
replacements, `&amp;` first. -/
def decodeHtml (l : List Char) : List Char :=
  replaceAll entApos "'".data
    (replaceAll entQuot "\"".data
      (replaceAll entGt ">".data
        (replaceAll entLt "<".data
          (replaceAll entAmp "&".data l))))

/-! ### Step equations for `replaceAll` -/

theorem raFuel_irrel {pat rep : List Char} (hpat : pat ≠ []) :
    ∀ (n m : Nat) (l : List Char), l.length ≤ n → l.length ≤ m →
      raFuel n pat rep l = raFuel m pat rep l := by
  have hplen : 0 < pat.length := List.length_pos.mpr hpat
  intro n
  induction n with
  | zero =>
    intro m l hn _
    have : l = [] := List.length_eq_zero.mp (Nat.le_zero.mp hn)
    subst this
    cases m <;> rfl
  | succ n ih =>
    intro m l hn hm
    cases l with
    | nil => cases m <;> rfl
    | cons c t =>
      cases m with
      | zero => simp at hm
      | succ m' =>
        simp only [List.length_cons, Nat.succ_le_succ_iff] at hn hm
        simp only [raFuel]
        by_cases hpre : pat.isPrefixOf (c :: t)
        · rw [if_pos hpre, if_pos hpre]
          have hdl : ((c :: t).drop pat.length).length ≤ t.length := by
            simp only [List.length_drop, List.length_cons]
            omega
          rw [ih m' ((c :: t).drop pat.length) (le_trans hdl hn) (le_trans hdl hm)]
        · rw [if_neg hpre, if_neg hpre, ih m' t hn hm]

theorem replaceAll_nil (pat rep : List Char) : replaceAll pat rep [] = [] := rfl

theorem replaceAll_cons_no_match {pat rep : List Char} {c : Char} {t : List Char}
    (h : ¬ pat <+: (c :: t)) :
    replaceAll pat rep (c :: t) = c :: replaceAll pat rep t := by
  have hb : pat.isPrefixOf (c :: t) = false := by
    rw [← Bool.not_eq_true, List.isPrefixOf_iff_prefix]
    exact h
  show raFuel (t.length + 1) pat rep (c :: t) = c :: raFuel t.length pat rep t
  simp only [raFuel, hb, Bool.false_eq_true, if_neg, not_false_eq_true]

theorem replaceAll_match {pat rep rest : List Char} (hpat : pat ≠ []) :
    replaceAll pat rep (pat ++ rest) = rep ++ replaceAll pat rep rest := by
  obtain ⟨p0, pt, rfl⟩ : ∃ p0 pt, pat = p0 :: pt := by
    cases pat with
    | nil => exact absurd rfl hpat
    | cons p0 pt => exact ⟨p0, pt, rfl⟩
  have hpre : (p0 :: pt).isPrefixOf ((p0 :: pt) ++ rest) = true :=
    List.isPrefixOf_iff_prefix.mpr (List.prefix_append _ _)
  show raFuel (((p0 :: pt) ++ rest).length) (p0 :: pt) rep ((p0 :: pt) ++ rest) = _
  have hcons : (p0 :: pt) ++ rest = p0 :: (pt ++ rest) := rfl
  rw [hcons]
  have hlen : (p0 :: (pt ++ rest)).length = (pt ++ rest).length + 1 := rfl
  rw [hlen]
  simp only [raFuel, hcons ▸ hpre, if_pos]
  congr 1
  have hdrop : (p0 :: (pt ++ rest)).drop (p0 :: pt).length = rest := by
    rw [← hcons]
    exact List.drop_left (p0 :: pt) rest
  rw [hdrop]
  exact raFuel_irrel hpat _ _ rest (by simp) (le_refl _)

/-! ### Round-trip machinery

After the `&amp;` pass, every character of the original string is back in
place and the remaining entity blocks decode one per pass.  The string at
each stage is `s.flatMap (stageN k)`, where `stageN k` maps the first `k`
special characters to themselves and still escapes the rest.  Each
replacement pass is shown to take stage `k` to stage `k + 1`, provided the
original string contains none of the five entity sequences (otherwise a
stray match concatenates out of original characters and the pass
over-decodes — exactly the counterexample). -/

/-- The five special characters, in the decode order of `decodeHtml`. -/
def specials : List Char := ['&', '<', '>', '"', '\'']

/-- The string after `k` decode passes, as a per-character block map: the
first `k` specials are plain again, the rest are still entities. -/
def stageN (k : Nat) (c : Char) : List Char :=
  if c ∈ specials.take k then [c] else escChar c

theorem stageN_zero (c : Char) : stageN 0 c = escChar c := by
  simp [stageN]

/-- Characters that `escapeHtml` leaves alone. -/
theorem escChar_eq_self {c : Char} (h1 : c ≠ '&') (h2 : c ≠ '<') (h3 : c ≠ '>')
    (h4 : c ≠ '"') (h5 : c ≠ '\'') : escChar c = [c] := by
  simp [escChar, h1, h2, h3, h4, h5]

theorem stageN_five (c : Char) : stageN 5 c = [c] := by
  by_cases h1 : c = '&'
  · simp [stageN, specials, h1]
  by_cases h2 : c = '<'
  · simp [stageN, specials, h2]
  by_cases h3 : c = '>'
  · simp [stageN, specials, h3]
  by_cases h4 : c = '"'
  · simp [stageN, specials, h4]
  by_cases h5 : c = '\''
  · simp [stageN, specials, h5]
  · simp only [stageN, specials]
    rw [if_neg (by simp [h1, h2, h3, h4, h5])]
    exact escChar_eq_self h1 h2 h3 h4 h5

theorem flatMap_stageN_five (s : List Char) : s.flatMap (stageN 5) = s := by
  induction s with
  | nil => rfl
  | cons c t ih => simp [List.flatMap_cons, stageN_five, ih]

/-- Every `escChar` block is a single non-special character or an entity:
it starts with `&`, has length at least 2, and contains no further `&`. -/
theorem escChar_block (c : Char) :
    escChar c = [c] ∨
    ((escChar c).head? = some '&' ∧ 2 ≤ (escChar c).length ∧ '&' ∉ (escChar c).tail) := by
  by_cases h1 : c = '&'
  · subst h1; right; exact ⟨by decide, by decide, by decide⟩
  by_cases h2 : c = '<'
  · subst h2; right; exact ⟨by decide, by decide, by decide⟩
  by_cases h3 : c = '>'
  · subst h3; right; exact ⟨by decide, by decide, by decide⟩
  by_cases h4 : c = '"'
  · subst h4; right; exact ⟨by decide, by decide, by decide⟩
  by_cases h5 : c = '\''
  · subst h5; right; exact ⟨by decide, by decide, by decide⟩
  · exact Or.inl (escChar_eq_self h1 h2 h3 h4 h5)

theorem stageN_block (k : Nat) (c : Char) :
    stageN k c = [c] ∨
    ((stageN k c).head? = some '&' ∧ 2 ≤ (stageN k c).length ∧ '&' ∉ (stageN k c).tail) := by
  unfold stageN
  by_cases hm : c ∈ specials.take k
  · rw [if_pos hm]; exact Or.inl rfl
  · rw [if_neg hm]; exact escChar_block c

/-- Pulling an unmatched block through `replaceAll`: if no match starts at
the block's head and the block has no interior `&` (where all matches of an
`&`-headed pattern must start), the block passes through unchanged. -/
theorem replaceAll_pull {pat rep : List Char} (hpat0 : pat.head? = some '&') :
    ∀ (E r : List Char), '&' ∉ E.tail → ¬ (pat <+: (E ++ r)) →
      replaceAll pat rep (E ++ r) = E ++ replaceAll pat rep r := by
  intro E
  induction E with
  | nil => intro r _ _; simp
  | cons x E' ih =>
    intro r htl hnp
    have hstep : replaceAll pat rep (x :: (E' ++ r)) = x :: replaceAll pat rep (E' ++ r) :=
      replaceAll_cons_no_match hnp
    rw [List.cons_append, hstep]
    cases E' with
    | nil => simp
    | cons y E'' =>
      have hy : y ≠ '&' := by
        intro hcon
        exact htl (by simp [hcon])
      have hnp' : ¬ (pat <+: ((y :: E'') ++ r)) := by
        intro hcon
        obtain ⟨p0, pt, rfl⟩ : ∃ p0 pt, pat = p0 :: pt := by
          cases pat with
          | nil => simp at hpat0
          | cons p0 pt => exact ⟨p0, pt, rfl⟩
        have hp0 : p0 = '&' := by simpa using hpat0
        rw [List.cons_append, List.cons_prefix_cons] at hcon
        exact hy (by rw [← hcon.1, hp0])
      have htl' : '&' ∉ (y :: E'').tail := by
        intro hcon
        exact htl (by simp [List.mem_cons]; right; exact hcon)
      rw [ih r htl' hnp']
      simp

/-- If a string of non-`&` characters is a prefix of a block string, it is a
prefix of the underlying string: every block is a singleton `[c]` or starts
with `&`. -/
theorem prefix_transparent (A : Char → List Char)
    (hblock : ∀ c, A c = [c] ∨ (A c).head? = some '&') :
    ∀ (w t : List Char), (∀ x ∈ w, x ≠ '&') → w <+: t.flatMap A → w <+: t := by
  intro w
  induction w with
  | nil => intro t _ _; exact List.nil_prefix
  | cons x w' ih =>
    intro t hx hp
    cases t with
    | nil =>
      simp only [List.flatMap_nil] at hp
      exact absurd (List.prefix_nil.mp hp) (by simp)
    | cons d t' =>
      rw [List.flatMap_cons] at hp
      rcases hblock d with hd | hd
      · rw [hd, List.singleton_append, List.cons_prefix_cons] at hp
        have := ih t' (fun z hz => hx z (List.mem_cons_of_mem _ hz)) hp.2
        rw [List.cons_prefix_cons]
        exact ⟨hp.1, this⟩
      · obtain ⟨a0, at', ha⟩ : ∃ a0 at', A d = a0 :: at' := by
          cases hA : A d with
          | nil => rw [hA] at hd; simp at hd
          | cons a0 at' => exact ⟨a0, at', rfl⟩
        have ha0 : a0 = '&' := by rw [ha] at hd; simpa using hd
        rw [ha, List.cons_append, List.cons_prefix_cons] at hp
        exact absurd (hp.1.trans ha0) (hx x (List.mem_cons_self _ _))

/-- A pattern that differs from a block at index 1 cannot match at the
block's head. -/
theorem not_prefix_of_ne_at_one {pat E r : List Char} (hP : 2 ≤ pat.length)
    (hE : 2 ≤ E.length) (hne : pat.get? 1 ≠ E.get? 1) : ¬ (pat <+: (E ++ r)) := by
  intro hp
  obtain ⟨s, hs⟩ := hp
  apply hne
  have h1 : (pat ++ s).get? 1 = pat.get? 1 := List.get?_append (by omega)
  have h2 : (E ++ r).get? 1 = E.get? 1 := List.get?_append (by omega)
  rw [← h1, hs, h2]

/-- One decode pass over a block string.  `A` is the block map before the
pass, `B` after; `c0` is the special character decoded by this pass and
`pat = A c0` its entity.  If the original string `s` contains no occurrence
of the entity text itself, the pass replaces exactly the `c0`-blocks. -/
theorem replaceAll_stage_pass
    (A B : Char → List Char) (c0 : Char) (pat : List Char)
    (hpatA : A c0 = pat)
    (hpatB : B c0 = [c0])
    (hAB : ∀ c, c ≠ c0 → A c = B c)
    (hpat0 : pat.head? = some '&')
    (hpat2 : 2 ≤ pat.length)
    (htail : ∀ x ∈ pat.tail, x ≠ '&')
    (hblock : ∀ c, A c = [c] ∨ ((A c).head? = some '&' ∧ 2 ≤ (A c).length ∧ '&' ∉ (A c).tail))
    (hdiff : ∀ c, c ≠ c0 → A c ≠ [c] → pat.get? 1 ≠ (A c).get? 1) :
    ∀ s, containsSub pat s = false →
      replaceAll pat [c0] (s.flatMap A) = s.flatMap B := by
  intro s
  induction s with
  | nil => intro _; simp [replaceAll_nil]
  | cons c t ih =>
    intro hs
    have hst : containsSub pat t = false := containsSub_tail_false hs
    rw [List.flatMap_cons, List.flatMap_cons]
    by_cases hc : c = c0
    · subst hc
      rw [hpatA, hpatB]
      have hpne : pat ≠ [] := by
        intro h
        rw [h] at hpat2
        simp at hpat2
      rw [replaceAll_match hpne, ih hst]
    · rcases hblock c with hsing | ⟨hhd, hlen, hint⟩
      · -- a plain character: no match can start here, else the original
        -- string would contain the entity text
        obtain ⟨p0, pt, hpe⟩ : ∃ p0 pt, pat = p0 :: pt := by
          cases hP : pat with
          | nil => rw [hP] at hpat2; simp at hpat2
          | cons p0 pt => exact ⟨p0, pt, rfl⟩
        have hp0 : p0 = '&' := by rw [hpe] at hpat0; simpa using hpat0
        have hnm : ¬ (pat <+: (c :: t.flatMap A)) := by
          intro hcon
          rw [hpe, List.cons_prefix_cons] at hcon
          have hptA : pt <+: t := by
            refine prefix_transparent A (fun d => (hblock d).imp id (·.1)) pt t ?_ hcon.2
            intro x hx
            refine htail x ?_
            rw [hpe]
            simpa using hx
          have htrue : pat.isPrefixOf (c :: t) = true := by
            rw [hpe]
            exact List.isPrefixOf_iff_prefix.mpr (List.cons_prefix_cons.mpr ⟨hcon.1, hptA⟩)
          have hf := not_prefix_of_containsSub_false hs
          rw [htrue] at hf
          simp at hf
        rw [hsing, List.singleton_append, replaceAll_cons_no_match hnm, ih hst]
        have hBc : B c = [c] := by rw [← hAB c hc, hsing]
        rw [hBc, List.singleton_append]
      · -- an entity block of a different special: it differs from the
        -- pattern at index 1 and has no interior `&`, so it pulls through
        have hsingne : A c ≠ [c] := by
          intro hcon
          rw [hcon] at hlen
          simp at hlen
        have hnm : ¬ (pat <+: (A c ++ t.flatMap A)) :=
          not_prefix_of_ne_at_one hpat2 hlen (hdiff c hc hsingne)
        rw [replaceAll_pull hpat0 (A c) (t.flatMap A) hint hnm, ih hst, hAB c hc]

theorem stageN_ne_single {k : Nat} {c : Char} (h : stageN k c ≠ [c]) :
    c ∉ specials.take k ∧ stageN k c = escChar c ∧ escChar c ≠ [c] := by
  by_cases hm : c ∈ specials.take k
  · exact absurd (by simp [stageN, hm]) h
  · have he : stageN k c = escChar c := by simp [stageN, hm]
    exact ⟨hm, he, by rw [← he]; exact h⟩

theorem escChar_ne_single_cases {c : Char} (h : escChar c ≠ [c]) :
    c = '&' ∨ c = '<' ∨ c = '>' ∨ c = '"' ∨ c = '\'' := by
  by_cases h1 : c = '&'
  · exact Or.inl h1
  by_cases h2 : c = '<'
  · exact Or.inr (Or.inl h2)
  by_cases h3 : c = '>'
  · exact Or.inr (Or.inr (Or.inl h3))
  by_cases h4 : c = '"'
  · exact Or.inr (Or.inr (Or.inr (Or.inl h4)))
  by_cases h5 : c = '\''
  · exact Or.inr (Or.inr (Or.inr (Or.inr h5)))
  · exact absurd (escChar_eq_self h1 h2 h3 h4 h5) h

theorem decode_pass_amp (s : List Char) (h : containsSub entAmp s = false) :
    replaceAll entAmp "&".data (s.flatMap (stageN 0)) = s.flatMap (stageN 1) := by
  show replaceAll entAmp ['&'] (s.flatMap (stageN 0)) = s.flatMap (stageN 1)
  refine replaceAll_stage_pass (stageN 0) (stageN 1) '&' entAmp (by decide) (by decide)
    ?_ (by decide) (by decide) (by decide) (stageN_block 0) ?_ s h
  · intro c hc
    simp [stageN, specials, hc]
  · intro c hc hne
    obtain ⟨hmem, heq, hesc⟩ := stageN_ne_single hne
    rcases escChar_ne_single_cases hesc with h1 | h1 | h1 | h1 | h1
    · exact absurd h1 hc
    all_goals subst h1
    all_goals rw [heq]
    all_goals decide

theorem decode_pass_lt (s : List Char) (h : containsSub entLt s = false) :
    replaceAll entLt "<".data (s.flatMap (stageN 1)) = s.flatMap (stageN 2) := by
  show replaceAll entLt ['<'] (s.flatMap (stageN 1)) = s.flatMap (stageN 2)
  refine replaceAll_stage_pass (stageN 1) (stageN 2) '<' entLt (by decide) (by decide)
    ?_ (by decide) (by decide) (by decide) (stageN_block 1) ?_ s h
  · intro c hc
    simp [stageN, specials, hc]
  · intro c hc hne
    obtain ⟨hmem, heq, hesc⟩ := stageN_ne_single hne
    rcases escChar_ne_single_cases hesc with h1 | h1 | h1 | h1 | h1
    · subst h1; exact absurd (by decide) hmem
    · exact absurd h1 hc
    all_goals subst h1
    all_goals rw [heq]
    all_goals decide

theorem decode_pass_gt (s : List Char) (h : containsSub entGt s = false) :
    replaceAll entGt ">".data (s.flatMap (stageN 2)) = s.flatMap (stageN 3) := by
  show replaceAll entGt ['>'] (s.flatMap (stageN 2)) = s.flatMap (stageN 3)
  refine replaceAll_stage_pass (stageN 2) (stageN 3) '>' entGt (by decide) (by decide)
    ?_ (by decide) (by decide) (by decide) (stageN_block 2) ?_ s h
  · intro c hc
    simp [stageN, specials, hc]
  · intro c hc hne
    obtain ⟨hmem, heq, hesc⟩ := stageN_ne_single hne
    rcases escChar_ne_single_cases hesc with h1 | h1 | h1 | h1 | h1
    · subst h1; exact absurd (by decide) hmem
    · subst h1; exact absurd (by decide) hmem
    · exact absurd h1 hc
    all_goals subst h1
    all_goals rw [heq]
    all_goals decide

theorem decode_pass_quot (s : List Char) (h : containsSub entQuot s = false) :
    replaceAll entQuot "\"".data (s.flatMap (stageN 3)) = s.flatMap (stageN 4) := by
  show replaceAll entQuot ['"'] (s.flatMap (stageN 3)) = s.flatMap (stageN 4)
  refine replaceAll_stage_pass (stageN 3) (stageN 4) '"' entQuot (by decide) (by decide)
    ?_ (by decide) (by decide) (by decide) (stageN_block 3) ?_ s h
  · intro c hc
    simp [stageN, specials, hc]
  · intro c hc hne
    obtain ⟨hmem, heq, hesc⟩ := stageN_ne_single hne
    rcases escChar_ne_single_cases hesc with h1 | h1 | h1 | h1 | h1
    · subst h1; exact absurd (by decide) hmem
    · subst h1; exact absurd (by decide) hmem
    · subst h1; exact absurd (by decide) hmem
    · exact absurd h1 hc
    all_goals subst h1
    all_goals rw [heq]
    all_goals decide

theorem decode_pass_apos (s : List Char) (h : containsSub entApos s = false) :
    replaceAll entApos "'".data (s.flatMap (stageN 4)) = s.flatMap (stageN 5) := by
  show replaceAll entApos ['\''] (s.flatMap (stageN 4)) = s.flatMap (stageN 5)
  refine replaceAll_stage_pass (stageN 4) (stageN 5) '\'' entApos (by decide) (by decide)
    ?_ (by decide) (by decide) (by decide) (stageN_block 4) ?_ s h
  · intro c hc
    simp [stageN, specials, hc]
  · intro c hc hne
    obtain ⟨hmem, heq, hesc⟩ := stageN_ne_single hne
    rcases escChar_ne_single_cases hesc with h1 | h1 | h1 | h1 | h1
    · subst h1; exact absurd (by decide) hmem
    · subst h1; exact absurd (by decide) hmem
    · subst h1; exact absurd (by decide) hmem
    · subst h1; exact absurd (by decide) hmem
    · exact absurd h1 hc

/-- The decode chain undoes the escape pass by pass, for strings containing
no entity sequence of their own. -/
theorem decodeHtml_escapeHtml_eq (s : List Char)
    (h1 : containsSub entAmp s = false) (h2 : containsSub entLt s = false)
    (h3 : containsSub entGt s = false) (h4 : containsSub entQuot s = false)
    (h5 : containsSub entApos s = false) :
    decodeHtml (escapeHtml s) = s := by
  have e0 : escapeHtml s = s.flatMap (stageN 0) := by
    unfold escapeHtml
    rw [show escChar = stageN 0 from funext fun c => (stageN_zero c).symm]
  unfold decodeHtml
  rw [e0, decode_pass_amp s h1, decode_pass_lt s h2, decode_pass_gt s h3,
    decode_pass_quot s h4, decode_pass_apos s h5, flatMap_stageN_five]

/-- No raw special characters (other than the `&` heading an entity) survive
`escapeHtml`. -/
theorem escChar_no_raw {d c : Char} (h : c ∈ escChar d) :
    c ≠ '<' ∧ c ≠ '>' ∧ c ≠ '"' ∧ c ≠ '\'' := by
  by_cases h1 : d = '&'
  · subst h1
    simp [escChar, entAmp] at h
    rcases h with rfl | rfl | rfl | rfl | rfl <;>
      exact ⟨by decide, by decide, by decide, by decide⟩
  by_cases h2 : d = '<'
  · subst h2
    simp [escChar, entLt] at h
    rcases h with rfl | rfl | rfl | rfl <;>
      exact ⟨by decide, by decide, by decide, by decide⟩
  by_cases h3 : d = '>'
  · subst h3
    simp [escChar, entGt] at h
    rcases h with rfl | rfl | rfl | rfl <;>
      exact ⟨by decide, by decide, by decide, by decide⟩
  by_cases h4 : d = '"'
  · subst h4
    simp [escChar, entQuot] at h
    rcases h with rfl | rfl | rfl | rfl | rfl | rfl <;>
      exact ⟨by decide, by decide, by decide, by decide⟩
  by_cases h5 : d = '\''
  · subst h5
    simp [escChar, entApos] at h
    rcases h with rfl | rfl | rfl | rfl | rfl <;>
      exact ⟨by decide, by decide, by decide, by decide⟩
  · rw [escChar_eq_self h1 h2 h3 h4 h5] at h
    simp only [List.mem_singleton] at h
    subst h
    exact ⟨h2, h3, h4, h5⟩

/-- Every `&` in the string begins one of the five entity sequences. -/
def ampEntityOk : List Char → Bool
  | [] => true
  | c :: t =>
    (if c = '&' then
      "amp;".data.isPrefixOf t || "lt;".data.isPrefixOf t || "gt;".data.isPrefixOf t ||
      "quot;".data.isPrefixOf t || "#39;".data.isPrefixOf t
    else true) && ampEntityOk t

theorem ampEntityOk_append_no_amp :
    ∀ {u : List Char} (r : List Char), '&' ∉ u → ampEntityOk (u ++ r) = ampEntityOk r := by
  intro u
  induction u with
  | nil => intro r _; rfl
  | cons x u' ih =>
    intro r hu
    have hx : x ≠ '&' := by
      intro hcon
      exact hu (by simp [hcon])
    have hu' : '&' ∉ u' := by
      intro hcon
      exact hu (List.mem_cons_of_mem _ hcon)
    simp only [List.cons_append, ampEntityOk, hx, if_neg, not_false_eq_true, Bool.true_and]
    exact ih r hu'

theorem ampEntityOk_escapeHtml (s : List Char) : ampEntityOk (escapeHtml s) = true := by
  induction s with
  | nil => rfl
  | cons c t ih =>
    unfold escapeHtml at ih ⊢
    rw [List.flatMap_cons]
    by_cases h1 : c = '&'
    · subst h1
      show ampEntityOk (('&' :: "amp;".data) ++ t.flatMap escChar) = true
      rw [List.cons_append, ampEntityOk]
      have hpre : "amp;".data.isPrefixOf ("amp;".data ++ t.flatMap escChar) = true :=
        List.isPrefixOf_iff_prefix.mpr (List.prefix_append _ _)
      rw [if_pos rfl, hpre]
      simp only [Bool.true_or, Bool.true_and]
      rw [ampEntityOk_append_no_amp (t.flatMap escChar) (by decide)]
      exact ih
    by_cases h2 : c = '<'
    · subst h2
      show ampEntityOk (('&' :: "lt;".data) ++ t.flatMap escChar) = true
      rw [List.cons_append, ampEntityOk]
      have hpre : "lt;".data.isPrefixOf ("lt;".data ++ t.flatMap escChar) = true :=
        List.isPrefixOf_iff_prefix.mpr (List.prefix_append _ _)
      rw [if_pos rfl, hpre]
      simp only [Bool.or_true, Bool.true_or, Bool.true_and]
      rw [ampEntityOk_append_no_amp (t.flatMap escChar) (by decide)]
      exact ih
    by_cases h3 : c = '>'
    · subst h3
      show ampEntityOk (('&' :: "gt;".data) ++ t.flatMap escChar) = true
      rw [List.cons_append, ampEntityOk]
      have hpre : "gt;".data.isPrefixOf ("gt;".data ++ t.flatMap escChar) = true :=
        List.isPrefixOf_iff_prefix.mpr (List.prefix_append _ _)
      rw [if_pos rfl, hpre]
      simp only [Bool.or_true, Bool.true_or, Bool.true_and]
      rw [ampEntityOk_append_no_amp (t.flatMap escChar) (by decide)]
      exact ih
    by_cases h4 : c = '"'
    · subst h4
      show ampEntityOk (('&' :: "quot;".data) ++ t.flatMap escChar) = true
      rw [List.cons_append, ampEntityOk]
      have hpre : "quot;".data.isPrefixOf ("quot;".data ++ t.flatMap escChar) = true :=
        List.isPrefixOf_iff_prefix.mpr (List.prefix_append _ _)
      rw [if_pos rfl, hpre]
      simp only [Bool.or_true, Bool.true_or, Bool.true_and]
      rw [ampEntityOk_append_no_amp (t.flatMap escChar) (by decide)]
      exact ih
    by_cases h5 : c = '\''
    · subst h5
      show ampEntityOk (('&' :: "#39;".data) ++ t.flatMap escChar) = true
      rw [List.cons_append, ampEntityOk]
      have hpre : "#39;".data.isPrefixOf ("#39;".data ++ t.flatMap escChar) = true :=
        List.isPrefixOf_iff_prefix.mpr (List.prefix_append _ _)
      rw [if_pos rfl, hpre]
      simp only [Bool.or_true, Bool.true_and]
      rw [ampEntityOk_append_no_amp (t.flatMap escChar) (by decide)]
      exact ih
    · rw [escChar_eq_self h1 h2 h3 h4 h5, List.singleton_append, ampEntityOk]
      rw [if_neg h1]
      simp only [Bool.true_and]
      exact ih

/-- The original string contains none of the five entity sequences. -/
def noEntitySeq (s : List Char) : Bool :=
  !(containsSub entAmp s || containsSub entLt s || containsSub entGt s ||
    containsSub entQuot s || containsSub entApos s)

/-- C6 counterexample: the front-matter title `"&lt;"` contains `&`, but the
escape/un-escape round-trip does not recover it: `escapeHtml "&lt;"` is
`"&amp;lt;"`, and `decodeHtml` — which replaces `&amp;` *first* — decodes it
twice, down to `"<"`. -/
theorem C6_counterexample :
    escapeHtml "&lt;".data = "&amp;lt;".data ∧
    decodeHtml (escapeHtml "&lt;".data) = "<".data ∧
    "<".data ≠ "&lt;".data := by
  exact ⟨by decide, by decide, by decide⟩

/-- C6 (amended): for every string containing none of the five entity
sequences `&amp; &lt; &gt; &quot; &#39;` as a substring, the round-trip holds
— `decodeHtml (escapeHtml s) = s` — and unconditionally the escaped text
contains no raw `<`, `>`, `"`, `'` and every `&` in it begins an entity.
For strings that do contain an entity sequence the round-trip over-decodes
(see `C6_counterexample`): the `&amp;` pass of `decodeHtml` runs first, so
an escaped `&amp;lt;` collapses in two steps to `<`. -/
theorem C6_escape_decode_roundTrip (s : List Char) (h : noEntitySeq s = true) :
    decodeHtml (escapeHtml s) = s ∧
    (∀ c ∈ escapeHtml s, c ≠ '<' ∧ c ≠ '>' ∧ c ≠ '"' ∧ c ≠ '\'') ∧
    ampEntityOk (escapeHtml s) = true := by
  have h' : containsSub entAmp s = false ∧ containsSub entLt s = false ∧
      containsSub entGt s = false ∧ containsSub entQuot s = false ∧
      containsSub entApos s = false := by
    simp only [noEntitySeq, Bool.not_eq_true', Bool.or_eq_false_iff] at h
    exact ⟨h.1.1.1.1, h.1.1.1.2, h.1.1.2, h.1.2, h.2⟩
  refine ⟨decodeHtml_escapeHtml_eq s h'.1 h'.2.1 h'.2.2.1 h'.2.2.2.1 h'.2.2.2.2, ?_, ampEntityOk_escapeHtml s⟩
  intro c hc
  obtain ⟨d, _, hd⟩ := List.mem_flatMap.mp hc
  exact escChar_no_raw hd

/-- Witness for `C6_escape_decode_roundTrip` at the concrete title
`"a<b&c"`. -/
theorem C6_escape_decode_roundTrip_witness :
    noEntitySeq "a<b&c".data = true ∧
    decodeHtml (escapeHtml "a<b&c".data) = "a<b&c".data :=
  ⟨by decide, (C6_escape_decode_roundTrip "a<b&c".data (by decide)).1⟩

/-! ### The cover page (`generateCoverPage`, `src/template.ts`)

Front matter is modelled as the typed record of the recognized fields, each
an optional string.  A field participates when it is JS-truthy: present and
not the empty string. -/

/-- The recognized front-matter fields (`FrontMatter` in `src/types.ts`);
the `date` field is modelled as the string the code embeds (for non-string
YAML dates the source stringifies via `toLocaleDateString` before use). -/
structure FrontMatter where
  title : Option String := none
  subtitle : Option String := none
  author : Option String := none
  date : Option String := none
  keywords : Option String := none

/-- JS truthiness of an optional string field: present and nonempty. -/
def truthy : Option String → Bool
  | none => false
  | some s => !(s = "")

/-- The title block: `<h1 class="cover-title">…</h1>` when the title is
truthy, else the empty string. -/
def coverTitlePart (fm : FrontMatter) : String :=
  if truthy fm.title then
    "<h1 class=\"cover-title\">" ++ escapeHtmlStr (fm.title.getD "") ++ "</h1>"
  else ""

/-- The subtitle block: `<p class="cover-subtitle">…</p>` when truthy. -/
def coverSubtitlePart (fm : FrontMatter) : String :=
  if truthy fm.subtitle then
    "<p class=\"cover-subtitle\">" ++ escapeHtmlStr (fm.subtitle.getD "") ++ "</p>"
  else ""

/-- The author meta block. -/
def coverAuthorPart (fm : FrontMatter) : String :=
  "<p><strong>Author:</strong> " ++ escapeHtmlStr (fm.author.getD "") ++ "</p>"

/-- The date meta block. -/
def coverDatePart (fm : FrontMatter) : String :=
  "<p><strong>Date:</strong> " ++ escapeHtmlStr (fm.date.getD "") ++ "</p>"

/-- The `metaParts` array: author then date, each only when truthy. -/
def coverMetaParts (fm : FrontMatter) : List String :=
  (if truthy fm.author then [coverAuthorPart fm] else []) ++
  (if truthy fm.date then [coverDatePart fm] else [])

/-- The `cover-meta` wrapper, only when some meta part exists. -/
def coverMeta (fm : FrontMatter) : String :=
  if (coverMetaParts fm).length > 0 then
    "<div class=\"cover-meta\">" ++ String.intercalate "\n" (coverMetaParts fm) ++ "</div>"
  else ""

/-- `generateCoverPage` from `src/template.ts`: the empty string when none
of title/author/date is truthy, else the cover markup assembled from the
per-field parts. -/
def generateCoverPage (fm : FrontMatter) : String :=
  if !(truthy fm.title || truthy fm.author || truthy fm.date) then ""
  else
    "<div class=\"cover-page\">\n  " ++ coverTitlePart fm ++ "\n  " ++
      coverSubtitlePart fm ++ "\n  " ++ coverMeta fm ++ "\n</div>"

theorem str_append_ne_empty_left {a : String} (b : String) (h : a ≠ "") :
    a ++ b ≠ "" := by
  intro hcon
  have hd : (a ++ b).data = [] := by rw [hcon]
  rw [String.data_append] at hd
  rcases List.append_eq_nil.mp hd with ⟨ha, _⟩
  exact h (String.ext ha)

theorem coverTitlePart_ne_iff (fm : FrontMatter) :
    coverTitlePart fm ≠ "" ↔ truthy fm.title = true := by
  unfold coverTitlePart
  by_cases h : truthy fm.title
  · rw [if_pos h]
    simp only [h, iff_true]
    rw [String.append_assoc]
    exact str_append_ne_empty_left _ (by decide)
  · rw [if_neg h]
    simp [h]

theorem coverSubtitlePart_ne_iff (fm : FrontMatter) :
    coverSubtitlePart fm ≠ "" ↔ truthy fm.subtitle = true := by
  unfold coverSubtitlePart
  by_cases h : truthy fm.subtitle
  · rw [if_pos h]
    simp only [h, iff_true]
    rw [String.append_assoc]
    exact str_append_ne_empty_left _ (by decide)
  · rw [if_neg h]
    simp [h]

/-- C5: the cover block exists if and only if at least one of title, author,
date is (truthy-)present in front matter; when it exists it is exactly the
concatenation of the per-field blocks, where the title and subtitle blocks
are nonempty exactly when their field is present (absent fields contribute
the empty string — no placeholder text), and the meta list carries one
author block and one date block exactly when those fields are present. -/
theorem C5_generateCoverPage_iff (fm : FrontMatter) :
    (generateCoverPage fm = "" ↔
      (truthy fm.title || truthy fm.author || truthy fm.date) = false) ∧
    (coverTitlePart fm ≠ "" ↔ truthy fm.title = true) ∧
    (coverSubtitlePart fm ≠ "" ↔ truthy fm.subtitle = true) ∧
    ((coverMetaParts fm).length =
      (if truthy fm.author then 1 else 0) + (if truthy fm.date then 1 else 0)) ∧
    (generateCoverPage fm ≠ "" →
      generateCoverPage fm =
        "<div class=\"cover-page\">\n  " ++ coverTitlePart fm ++ "\n  " ++
          coverSubtitlePart fm ++ "\n  " ++ coverMeta fm ++ "\n</div>") := by
  have hbody : "<div class=\"cover-page\">\n  " ++ coverTitlePart fm ++ "\n  " ++
      coverSubtitlePart fm ++ "\n  " ++ coverMeta fm ++ "\n</div>" ≠ "" := by
    intro hcon
    have hd : ("<div class=\"cover-page\">\n  " ++ coverTitlePart fm ++ "\n  " ++
        coverSubtitlePart fm ++ "\n  " ++ coverMeta fm ++ "\n</div>").data = [] := by
      rw [hcon]
    simp only [String.data_append] at hd
    rcases List.append_eq_nil.mp hd with ⟨h1, -⟩
    rcases List.append_eq_nil.mp h1 with ⟨h1, -⟩
    rcases List.append_eq_nil.mp h1 with ⟨h1, -⟩
    rcases List.append_eq_nil.mp h1 with ⟨h1, -⟩
    rcases List.append_eq_nil.mp h1 with ⟨h1, -⟩
    rcases List.append_eq_nil.mp h1 with ⟨h1, -⟩
    exact absurd h1 (by decide)
  refine ⟨?_, coverTitlePart_ne_iff fm, coverSubtitlePart_ne_iff fm, ?_, ?_⟩
  · unfold generateCoverPage
    by_cases h : (truthy fm.title || truthy fm.author || truthy fm.date) = true
    · rw [h]
      simp only [Bool.not_true, Bool.false_eq_true, if_neg, not_false_eq_true]
      constructor
      · intro hcon
        exact absurd hcon hbody
      · intro hcon
        simp at hcon
    · have h' : (truthy fm.title || truthy fm.author || truthy fm.date) = false := by
        simpa using h
      rw [h']
      simp
  · unfold coverMetaParts
    by_cases ha : truthy fm.author <;> by_cases hd : truthy fm.date <;> simp [ha, hd]
  · intro hne
    unfold generateCoverPage at hne ⊢
    by_cases h : (truthy fm.title || truthy fm.author || truthy fm.date) = true
    · rw [h]
      simp only [Bool.not_true, Bool.false_eq_true, if_neg, not_false_eq_true]
    · have h' : (truthy fm.title || truthy fm.author || truthy fm.date) = false := by
        simpa using h
      rw [h'] at hne
      simp at hne

/-- Witness for `C5_generateCoverPage_iff`: a front matter with only a
subtitle has no cover block (the iff with an all-false condition), while one
with a title has a nonempty cover. -/
theorem C5_generateCoverPage_iff_witness :
    generateCoverPage { subtitle := some "S" } = "" ∧
    generateCoverPage { title := some "T" } ≠ "" := by
  constructor
  · exact (C5_generateCoverPage_iff { subtitle := some "S" }).1.mpr (by decide)
  · intro hcon
    have h := (C5_generateCoverPage_iff { title := some "T" }).1.mp hcon
    revert h
    decide

/-! ### Heading extraction and the TOC (`parseMarkdown`, `src/parser.ts`;
`generateToc`, `src/template.ts`)

`parseMarkdown` installs a custom `renderer.heading` that, for each heading
token in document order, pushes `{ id: generateId(raw), title: raw, level }`
onto the TOC list when `level ≤ 3`, and returns
`originalHeading(text, level, raw)` — where `originalHeading` is the
`heading` method of a *fresh* `new marked.Renderer()`, i.e. marked's default
renderer, **not** the `gfmHeadingId` extension's renderer (the custom
renderer always returns a string, so the extension never runs).  Marked's
default heading renderer (v5 and later; the version the repo must use, since
it calls `heading` with three arguments and relies on `marked-gfm-heading-id`
for ids) renders `<h{level}>{text}</h{level}>\n` with **no id attribute**.

The parse walk is modelled over the heading/other block structure the
external Markdown parser delivers; heading levels from that collaborator lie
in 1–6. -/

/-- One TOC entry (`TocItem` in `src/types.ts`). -/
structure TocItem where
  id : String
  title : String
  level : Nat
deriving DecidableEq

/-- A block as seen by the renderer walk: a heading token (with rendered
inline `text` and raw source `raw`), or any other block rendered to
markup. -/
inductive MdBlock where
  | heading (level : Nat) (text : String) (raw : String)
  | html (content : String)
deriving DecidableEq

/-- The TOC contribution of one block: the custom `renderer.heading` pushes
an entry exactly for headings with `level ≤ 3`, with `generateId(raw)` as
the id and the raw text as title. -/
def tocOfBlock : MdBlock → Option TocItem
  | .heading level _ raw =>
    if level ≤ 3 then some ⟨generateIdStr raw, raw, level⟩ else none
  | .html _ => none

/-- The TOC list accumulated by `parseMarkdown`, in document order. -/
def extractToc (blocks : List MdBlock) : List TocItem :=
  blocks.filterMap tocOfBlock

/-- The TOC entry built for a level-1..3 heading. -/
def headingEntry : MdBlock → TocItem
  | .heading level _ raw => ⟨generateIdStr raw, raw, level⟩
  | .html _ => ⟨"", "", 0⟩

/-- Rendering of one block: marked's default heading renderer emits
`<h{level}>{text}</h{level}>\n` — no id attribute (the custom renderer
bypasses the `gfmHeadingId` extension); other blocks render to their
markup. -/
def renderBlock : MdBlock → String
  | .heading level text _ =>
    "<h" ++ toString level ++ ">" ++ text ++ "</h" ++ toString level ++ ">\n"
  | .html content => content

/-- The rendered body: concatenation of the rendered blocks in order. -/
def renderBlocks : List MdBlock → String
  | [] => ""
  | b :: t => renderBlock b ++ renderBlocks t

/-- Headings that receive a TOC entry. -/
def isTocHeading : MdBlock → Bool
  | .heading level _ _ => level ≤ 3
  | .html _ => false

/-- Well-formedness of the external parser's output: heading levels are
1–6. -/
def blockWF : MdBlock → Bool
  | .heading level _ _ => 1 ≤ level && level ≤ 6
  | .html _ => true

/-- One `<li>` of the TOC markup (`generateToc`, `src/template.ts`). -/
def tocItemHtml (item : TocItem) : String :=
  "<li class=\"toc-item toc-level-" ++ toString item.level ++ "\">\n  <a href=\"#" ++
    item.id ++ "\">" ++ escapeHtmlStr item.title ++ "</a>\n  <span class=\"toc-item-page\"></span>\n</li>"

/-- `generateToc` from `src/template.ts`: empty for an empty heading list,
else a `toc` block with one linked `<li>` per entry. -/
def generateToc (toc : List TocItem) : String :=
  if toc.length = 0 then ""
  else
    "<div class=\"toc\">\n  <h1 class=\"toc-title\">Table of Contents</h1>\n  <ul class=\"toc-list\">\n    " ++
      String.intercalate "\n" (toc.map tocItemHtml) ++ "\n  </ul>\n</div>"

theorem tocOfBlock_eq_some {b : MdBlock} (h : isTocHeading b = true) :
    tocOfBlock b = some (headingEntry b) := by
  cases b with
  | heading level text raw =>
    simp only [isTocHeading, decide_eq_true_eq] at h
    simp [tocOfBlock, headingEntry, h]
  | html content => simp [isTocHeading] at h

theorem tocOfBlock_eq_none {b : MdBlock} (h : isTocHeading b = false) :
    tocOfBlock b = none := by
  cases b with
  | heading level text raw =>
    simp only [isTocHeading, decide_eq_false_iff_not] at h
    simp [tocOfBlock, h]
  | html content => rfl

theorem extractToc_eq_map (blocks : List MdBlock) :
    extractToc blocks = (blocks.filter isTocHeading).map headingEntry := by
  induction blocks with
  | nil => rfl
  | cons b t ih =>
    cases hb : isTocHeading b with
    | true =>
      rw [extractToc, List.filterMap_cons, tocOfBlock_eq_some hb]
      rw [List.filter_cons_of_pos hb, List.map_cons]
      rw [← extractToc, ih]
    | false =>
      rw [extractToc, List.filterMap_cons, tocOfBlock_eq_none hb]
      rw [List.filter_cons_of_neg (by simp [hb]), ← extractToc, ih]

theorem renderBlocks_mem_split :
    ∀ (blocks : List MdBlock) (b : MdBlock), b ∈ blocks →
      ∃ u v, renderBlocks blocks = u ++ renderBlock b ++ v := by
  intro blocks
  induction blocks with
  | nil => intro b hb; simp at hb
  | cons x t ih =>
    intro b hb
    rcases List.mem_cons.mp hb with rfl | hmem
    · exact ⟨"", renderBlocks t, by simp [renderBlocks]⟩
    · obtain ⟨u, v, huv⟩ := ih b hmem
      refine ⟨renderBlock x ++ u, v, ?_⟩
      rw [renderBlocks, huv]
      simp [String.append_assoc]

/-- C7: the extracted TOC has exactly one entry per level-1/2/3 heading of
the body, in document order (it is the image of the filtered heading list
under the entry construction); headings of level 4 or deeper contribute no
entry; and every block — deeper headings included — still renders into the
body markup. -/
theorem C7_extractToc_toc (blocks : List MdBlock)
    (hwf : ∀ b ∈ blocks, blockWF b = true) :
    (extractToc blocks).length = (blocks.filter isTocHeading).length ∧
    extractToc blocks = (blocks.filter isTocHeading).map headingEntry ∧
    (∀ b ∈ blocks, isTocHeading b = true →
      ∃ level text raw, b = .heading level text raw ∧ 1 ≤ level ∧ level ≤ 3) ∧
    (∀ level text raw, 4 ≤ level → tocOfBlock (.heading level text raw) = none) ∧
    (∀ b ∈ blocks, ∃ u v, renderBlocks blocks = u ++ renderBlock b ++ v) := by
  have hmap := extractToc_eq_map blocks
  refine ⟨by rw [hmap, List.length_map], hmap, ?_, ?_, fun b hb => renderBlocks_mem_split blocks b hb⟩
  · intro b hb hh
    cases b with
    | heading level text raw =>
      refine ⟨level, text, raw, rfl, ?_, ?_⟩
      · have := hwf _ hb
        simp only [blockWF, Bool.and_eq_true, decide_eq_true_eq] at this
        exact this.1
      · simpa [isTocHeading] using hh
    | html content => simp [isTocHeading] at hh
  · intro level text raw h4
    simp [tocOfBlock]
    omega

/-- Witness for `C7_extractToc_toc` at a concrete document with an `h1`, a
paragraph, and an `h4`. -/
theorem C7_extractToc_toc_witness :
    extractToc [MdBlock.heading 1 "Title" "Title", MdBlock.html "<p>x</p>",
      MdBlock.heading 4 "Deep" "Deep"] =
      [⟨"title", "Title", 1⟩] := by
  have h := C7_extractToc_toc
    [MdBlock.heading 1 "Title" "Title", MdBlock.html "<p>x</p>",
      MdBlock.heading 4 "Deep" "Deep"] (by decide)
  rw [h.2.1]
  decide

/-- C2: evaluation at the failing document `# Title`.  The TOC records id
`"title"` and `generateToc` emits the in-document link `#title`, but the
rendered body heading — marked's default `<h1>Title</h1>` produced because
the custom renderer bypasses the `gfmHeadingId` extension — carries no id
attribute at all (no `id=` occurs in the body), so the link target matches
no anchored heading.  This contradicts the claim and the source's own
comment `// Return the heading with proper ID`. -/
theorem C2_toc_link_dangles :
    extractToc [MdBlock.heading 1 "Title" "Title"] = [⟨"title", "Title", 1⟩] ∧
    containsSub "href=\"#title\"".data
      (generateToc (extractToc [MdBlock.heading 1 "Title" "Title"])).data = true ∧
    renderBlocks [MdBlock.heading 1 "Title" "Title"] = "<h1>Title</h1>\n" ∧
    containsSub "id=".data (renderBlocks [MdBlock.heading 1 "Title" "Title"]).data = false := by
  exact ⟨by decide, by decide, by decide, by decide⟩

/-! ### Theme resolution (`getTheme`, `src/themes.ts`)

The source holds four `Theme` records with large CSS string constants and
resolves a name by object lookup with `|| githubTheme` as fallback:

```ts
const themes: Record<string, Theme> = {
  'github': githubTheme, 'github-dark': githubDarkTheme,
  'academic': academicTheme, 'minimal': minimalTheme
};
return themes[themeName] || githubTheme;
```

`themes` is a plain object *literal*, so the bracket lookup consults the
prototype chain: for a name that is a property of `Object.prototype`
(`toString`, `valueOf`, `hasOwnProperty`, `isPrototypeOf`,
`propertyIsEnumerable`, `toLocaleString`, `constructor`, and the Annex-B
accessors `__proto__`, `__defineGetter__`, `__defineSetter__`,
`__lookupGetter__`, `__lookupSetter__`), `themes[themeName]` yields the
inherited member — a function (or, for `__proto__`, an object) — which is
truthy, so `||` keeps it and `getTheme` returns a value that is *not* a
theme bundle (its `.css` is `undefined`).  Only names that are neither own
keys nor inherited properties produce `undefined` and fall back to the
github bundle.  The lookup result is therefore modelled as a sum of the two
kinds of JS value the expression can produce.

The CSS rule text is abbreviated here to short distinct markers — no claim
under study depends on the rule text, only on which bundle is returned and
on CSS identity between bundles — while the bundle structure (a shared base
plus theme-specific extras appended after it) mirrors the source. -/

/-- A named CSS bundle (`Theme` in `src/themes.ts`). -/
structure Theme where
  name : String
  css : String
deriving DecidableEq

/-- The shared base rule set (`baseStyles`): typography, page-break and
print layout rules.  Text abbreviated. -/
def baseStyles : String := "/* base: typography, page-break and print layout rules */"

/-- Dark-mode color overrides appended for `github-dark`.  Text
abbreviated. -/
def githubDarkExtras : String := "/* github-dark: dark color overrides */"

/-- Serif/academic overrides.  Text abbreviated. -/
def academicExtras : String := "/* academic: serif typography overrides */"

/-- Reduced-sizing overrides.  Text abbreviated. -/
def minimalExtras : String := "/* minimal: reduced sizing overrides */"

/-- The default bundle. -/
def githubTheme : Theme := ⟨"github", baseStyles⟩

/-- The dark bundle: base plus dark overrides. -/
def githubDarkTheme : Theme := ⟨"github-dark", baseStyles ++ githubDarkExtras⟩

/-- The academic bundle. -/
def academicTheme : Theme := ⟨"academic", baseStyles ++ academicExtras⟩

/-- The minimal bundle. -/
def minimalTheme : Theme := ⟨"minimal", baseStyles ++ minimalExtras⟩

/-- The property names of `Object.prototype` (ECMA-262, own properties,
including the Annex-B accessors), all of whose values are truthy: a plain
object literal inherits these, so `themes[name]` yields the inherited
member for each of them. -/
def objectProtoProps : List String :=
  ["constructor", "hasOwnProperty", "isPrototypeOf", "propertyIsEnumerable",
   "toLocaleString", "toString", "valueOf", "__proto__",
   "__defineGetter__", "__defineSetter__", "__lookupGetter__", "__lookupSetter__"]

/-- A JS value that `themes[themeName] || githubTheme` can evaluate to:
one of the theme bundles, or a member inherited from `Object.prototype`
(a function or object — truthy, so `||` keeps it — that is not a theme
bundle). -/
inductive ThemeLookup where
  | bundle (t : Theme)
  | protoMember (name : String)
deriving DecidableEq

/-- `getTheme` from `src/themes.ts`: `themes[themeName] || githubTheme`.
An own key of the object literal yields its bundle; a property name
inherited from `Object.prototype` yields the inherited member (truthy, so
the `||` fallback does not fire); only any other name yields `undefined`
(falsy) and falls back to the github bundle. -/
def getTheme (themeName : String) : ThemeLookup :=
  if themeName = "github" then .bundle githubTheme
  else if themeName = "github-dark" then .bundle githubDarkTheme
  else if themeName = "academic" then .bundle academicTheme
  else if themeName = "minimal" then .bundle minimalTheme
  else if themeName ∈ objectProtoProps then .protoMember themeName
  else .bundle githubTheme

/-- The `.css` member access performed on `getTheme`'s result by
`generateHtml`: on a bundle it is the bundle's CSS; on an inherited
`Object.prototype` member it is `undefined`, which a template literal
interpolates as the text `undefined`. -/
def lookupCss : ThemeLookup → String
  | .bundle t => t.css
  | .protoMember _ => "undefined"

/-- `getAvailableThemes` from `src/themes.ts`. -/
def getAvailableThemes : List String := ["github", "github-dark", "academic", "minimal"]

/-- C8 counterexample: the theme name `"toString"` is outside the
enumerated set, yet theme resolution does *not* return the default bundle:
`themes['toString']` finds the inherited `Object.prototype.toString`
function, which is truthy, so `|| githubTheme` keeps it — the result is not
a theme bundle and its `.css` is `undefined`, not the default CSS. -/
theorem C8_counterexample :
    "toString" ∉ getAvailableThemes ∧
    getTheme "toString" = ThemeLookup.protoMember "toString" ∧
    getTheme "toString" ≠ ThemeLookup.bundle githubTheme ∧
    lookupCss (getTheme "toString") ≠ lookupCss (getTheme "github") := by
  exact ⟨by decide, by decide, by decide, by decide⟩

/-- C8 (amended): every theme name outside the enumerated set **that is not
a property name inherited from `Object.prototype`** resolves, without any
error (the resolver is a total function), to the designated default bundle,
whose CSS is identical to the CSS returned for the default name `"github"`
— in particular `"nonexistent"` resolves to the same CSS as the default
theme.  For the inherited property names (`toString`, `valueOf`, …) the
lookup instead returns the truthy inherited member, which is not a theme
bundle (see `C8_counterexample`). -/
theorem C8_getTheme_fallback (name : String)
    (h1 : name ≠ "github") (h2 : name ≠ "github-dark")
    (h3 : name ≠ "academic") (h4 : name ≠ "minimal")
    (h5 : name ∉ objectProtoProps) :
    getTheme name = ThemeLookup.bundle githubTheme ∧
    lookupCss (getTheme name) = lookupCss (getTheme "github") ∧
    name ∉ getAvailableThemes := by
  have hres : getTheme name = ThemeLookup.bundle githubTheme := by
    simp [getTheme, h1, h2, h3, h4, h5]
  refine ⟨hres, ?_, by simp [getAvailableThemes, h1, h2, h3, h4]⟩
  rw [hres]
  rfl

/-- Witness for `C8_getTheme_fallback`: the spec's scenario name
`"nonexistent"` resolves to the same CSS as the default theme. -/
theorem C8_getTheme_fallback_witness :
    getTheme "nonexistent" = ThemeLookup.bundle githubTheme ∧
    lookupCss (getTheme "nonexistent") = lookupCss (getTheme "github") ∧
    "nonexistent" ∉ getAvailableThemes :=
  C8_getTheme_fallback "nonexistent" (by decide) (by decide) (by decide) (by decide)
    (by decide)

/-! ### Document assembly and the conversion gate (`generateHtml`,
`src/template.ts`; `validateMarkdown`, `src/parser.ts`;
`convertMarkdownToPdf`, `src/converter.ts`)

The orchestrator's external stages (file I/O, syntax highlighting, the
headless-browser render, PDF metadata) are collaborators; the embedding
keeps the pure pipeline: validation gate, then parse (a function parameter,
standing for the external Markdown parser), then document assembly.  The
assembled HTML stands in for the artifact handed to the renderer. -/

/-- The parsed document (`ParsedMarkdown` in `src/types.ts`). -/
structure ParsedMarkdownM where
  content : String := ""
  frontMatter : FrontMatter := {}
  toc : List TocItem := []
  html : String := ""

/-- The conversion options consumed by the pure pipeline (`PdfOptions` in
`src/types.ts`, restricted to the fields `generateHtml` reads; `css` holds
the custom CSS file's text, read by the converter before assembly). -/
structure PdfOptionsM where
  theme : Option String := none
  toc : Bool := true
  pageNumbers : Bool := true
  css : Option String := none

/-- JS `a || b` for an optional string and a default. -/
def jsOr : Option String → String → String
  | some s, d => if s = "" then d else s
  | none, d => d

/-- Additional styles injected by the template (`getAdditionalStyles`).
Text abbreviated. -/
def getAdditionalStyles : String := "/* section wrapper and container styles */"

/-- `generateHtml` from `src/template.ts`: cover block, optional TOC block,
then the section-wrapped content, inside one document with an embedded style
block (theme CSS, additional styles, then any custom CSS — which therefore
takes precedence). -/
def generateHtml (parsed : ParsedMarkdownM) (options : PdfOptionsM) : String :=
  "<!DOCTYPE html>\n<html lang=\"en\">\n<head>\n  <meta charset=\"UTF-8\">\n  " ++
    "<meta name=\"viewport\" content=\"width=device-width, initial-scale=1.0\">\n  <title>" ++
    escapeHtmlStr (jsOr parsed.frontMatter.title "Document") ++
    "</title>\n  <style>\n    " ++
    lookupCss (getTheme (options.theme.getD "github")) ++ "\n    " ++
    getAdditionalStyles ++ "\n    " ++
    (if truthy options.css then "/* Custom CSS */\n" ++ options.css.getD "" else "") ++
    "\n  </style>\n</head>\n<body>\n  " ++
    generateCoverPage parsed.frontMatter ++ "\n  " ++
    (if options.toc then generateToc parsed.toc else "") ++
    "\n  <div class=\"content\">\n    " ++
    (wrapContentSections parsed.html.data).asString ++
    "\n  </div>\n</body>\n</html>"

/-- The result of `validateMarkdown` (`src/parser.ts`). -/
structure ValidationResult where
  valid : Bool
  error : Option String
deriving DecidableEq

/-- `validateMarkdown` from `src/parser.ts`: empty (or whitespace-only)
content fails, content longer than 10 MiB (10 × 1024 × 1024 code units)
fails, all else passes. -/
def validateMarkdown (content : String) : ValidationResult :=
  if content = "" || (jsTrim content.data).length = 0 then
    ⟨false, some "Markdown content is empty"⟩
  else if 10 * 1024 * 1024 < content.length then
    ⟨false, some "Markdown file is too large (max 10MB)"⟩
  else ⟨true, none⟩

/-- The conversion result (`ConversionResult` in `src/types.ts`); the
`html` field carries the assembled document handed to the external renderer
(`none` when the conversion failed before assembly). -/
structure ConversionResult where
  success : Bool
  outputPath : String
  error : Option String
  html : Option String
deriving DecidableEq

/-- The pure pipeline of `convertMarkdownToPdf` (`src/converter.ts`): the
validation gate runs first; on failure the conversion stops with a failure
result (`success: false, outputPath: ''`, the validation error) *before*
the Markdown parser — here the function parameter `parse` — is ever
applied; on success the parsed document is assembled with `generateHtml`. -/
def convertMarkdownToPdf (parse : String → ParsedMarkdownM) (options : PdfOptionsM)
    (outputPath : String) (content : String) : ConversionResult :=
  if (validateMarkdown content).valid = false then
    { success := false, outputPath := "", error := (validateMarkdown content).error,
      html := none }
  else
    { success := true, outputPath := outputPath, error := none,
      html := some (generateHtml (parse content) options) }

/-- C9: for 0-byte content and for content over the 10 MiB ceiling,
validation fails and the conversion returns a failure result that is a
constant independent of the parse function — the Markdown parser is never
invoked (no parsed document, no assembled html). -/
theorem C9_validation_gate (parse : String → ParsedMarkdownM) (options : PdfOptionsM)
    (outputPath : String) (content : String)
    (h : content = "" ∨ 10 * 1024 * 1024 < content.length) :
    (validateMarkdown content).valid = false ∧
    convertMarkdownToPdf parse options outputPath content =
      { success := false, outputPath := "", error := (validateMarkdown content).error,
        html := none } := by
  have hv : (validateMarkdown content).valid = false := by
    rcases h with rfl | hlen
    · decide
    · unfold validateMarkdown
      by_cases hemp : (content = "" || ((jsTrim content.data).length = 0 : Bool)) = true
      · rw [if_pos hemp]
      · rw [if_neg hemp, if_pos hlen]
  refine ⟨hv, ?_⟩
  unfold convertMarkdownToPdf
  rw [if_pos hv]

/-- Witness for `C9_validation_gate` at the 0-byte input. -/
theorem C9_validation_gate_witness :
    (validateMarkdown "").valid = false ∧
    convertMarkdownToPdf (fun _ => {}) {} "out.pdf" "" =
      { success := false, outputPath := "", error := some "Markdown content is empty",
        html := none } := by
  have h := C9_validation_gate (fun _ => {}) {} "out.pdf" "" (Or.inl rfl)
  refine ⟨h.1, ?_⟩
  rw [h.2]
  rfl
